import Mathlib

/-!
A verification development for the database-backed file storage layer
(`pkg/infra/filestorage/db_filestorage.go`): a shallow embedding of the
`file` and `file_meta` tables and of the storage operations
(`Get`, `Delete`, `Upsert`, `ListFiles`, `ListFolders`), together with
theorems about deletion, pagination, folder synthesis, path filters,
directory markers and argument preconditions.

Machine strings are modelled as Lean `String` (a list of characters);
lower-casing (Go `strings.ToLower` / SQL `LOWER`) is character-wise
`Char.toLower`; SQL `LIKE 'p%'` / `LIKE '%s'` are prefix / suffix match;
SQL `path > ?` is the lexicographic string order; byte slices are `List Nat`
and timestamps are `Nat` (an explicit `now` argument replaces `time.Now()`).
-/

/-- The path delimiter. Modelled from the spec: the fixed path-delimiter
constant shared between the facade and the record layer (`Delimiter`),
missing from the provided sources. -/
def Delimiter : String := "/"

/-- Modelled from the spec: the reserved directory-marker segment name
(`directoryMarker`), missing from the provided sources; its exact text is
irrelevant to the theorems below. -/
def directoryMarker : String := "dir_marker_segment"

/-- Character-wise lower-casing, modelling both Go `strings.ToLower` and
SQL `LOWER` as applied to paths. -/
def strLower (s : String) : String := ⟨s.data.map Char.toLower⟩

/-- `strStartsWith s p` models SQL `s LIKE 'p%'` (and Go `strings.HasPrefix`). -/
def strStartsWith (s p : String) : Bool := p.data.isPrefixOf s.data

/-- `strEndsWith s p` models SQL `s LIKE '%p'` (the pattern text is treated
literally). -/
def strEndsWith (s p : String) : Bool := p.data.isSuffixOf s.data

/-- Go `strings.Split` on the single-character delimiter, over char lists:
splitting never yields an empty list of segments. -/
def splitOnCharList (sep : Char) : List Char → List (List Char)
  | [] => [[]]
  | c :: rest =>
    if c == sep then [] :: splitOnCharList sep rest
    else
      match splitOnCharList sep rest with
      | [] => [[c]]
      | h :: t => (c :: h) :: t

/-- Go `strings.Split(s, Delimiter)` (the delimiter is the single
character `/`). -/
def splitOnDelim (s : String) : List String :=
  (splitOnCharList '/' s.data).map (fun cs => ⟨cs⟩)

/-- Joins segments with the delimiter (Go `strings.Join(parts, Delimiter)`). -/
def joinDelim : List String → String
  | [] => ""
  | [s] => s
  | s :: rest => s ++ Delimiter ++ joinDelim rest

/-- Modelled from the spec: `parentFolderPath` is always the path with its
final segment removed; a path with no remaining segments has an empty/root
parent (`getParentFolderPath`, missing from the provided sources). -/
def getParentFolderPath (path : String) : String :=
  joinDelim (splitOnDelim path).dropLast

/-- Modelled from the spec: the leaf name derived from a full path is its
final segment (`getName`, missing from the provided sources). -/
def getName (path : String) : String :=
  (splitOnDelim path).getLastD ""

/-- A row of the `file` table. -/
structure FileRow where
  path : String
  parentFolderPath : String
  contents : List Nat
  updated : Nat
  created : Nat
  size : Nat
  mimeType : String
  deriving DecidableEq, Repr

/-- A row of the `file_meta` table. -/
structure MetaRow where
  path : String
  key : String
  value : String
  updated : Nat
  created : Nat
  deriving DecidableEq, Repr

/-- The two tables backing the storage. -/
structure DbState where
  files : List FileRow
  metas : List MetaRow
  deriving DecidableEq, Repr

/-- The metadata part of a returned file (`FileMetadata`); folder entries
produced by `ListFolders` fill only `name` and `fullPath`, the remaining
fields keeping their Go zero values. -/
structure FileMetadata where
  name : String := ""
  fullPath : String := ""
  created : Nat := 0
  properties : List (String × String) := []
  modified : Nat := 0
  size : Nat := 0
  mimeType : String := ""
  deriving DecidableEq, Repr

/-- A returned file (`File`): contents plus metadata. -/
structure File where
  contents : List Nat
  meta : FileMetadata
  deriving DecidableEq, Repr

/-- `UpsertFileCommand`: `contents = none` models a nil `*[]byte`. -/
structure UpsertFileCommand where
  path : String
  contents : Option (List Nat)
  mimeType : String
  properties : List (String × String)
  deriving DecidableEq, Repr

/-- `PathFilters`: the set of allowed path prefixes. -/
structure PathFilters where
  allowedPrefixes : List String
  deriving DecidableEq, Repr

/-- `ListOptions`. -/
structure ListOptions where
  recursive : Bool
  pathFilters : PathFilters
  deriving DecidableEq, Repr

/-- `Paging`: `first` is the page size, `after` the cursor. -/
structure Paging where
  first : Nat
  after : String
  deriving DecidableEq, Repr

/-- `ListFilesResponse`. -/
structure ListFilesResponse where
  files : List FileMetadata
  lastPath : String
  hasMore : Bool
  deriving DecidableEq, Repr

/-- The `sess.Table("file").Where("LOWER(path) = ?", strings.ToLower(p)).Get`
lookup: the first row whose lower-cased path equals the lower-cased
argument. -/
def lookupFile (st : DbState) (filePath : String) : Option FileRow :=
  st.files.find? (fun r => strLower r.path == strLower filePath)

/-- The `file_meta` rows of a (lower-cased) path, as key/value pairs
(`getProperties` restricted to one path, as used by `Get` and `ListFiles`). -/
def metaPairs (metas : List MetaRow) (lowerPath : String) : List (String × String) :=
  (metas.filter (fun m => m.path == lowerPath)).map (fun m => (m.key, m.value))

/-- `dbFileStorage.Get`: case-insensitive exact path match; absent rows give
`none` (not an error). -/
def Get (st : DbState) (filePath : String) : Option File :=
  match lookupFile st filePath with
  | none => none
  | some table =>
    some { contents := table.contents
         , meta := { name := getName table.path
                   , fullPath := table.path
                   , created := table.created
                   , properties := metaPairs st.metas (strLower filePath)
                   , modified := table.updated
                   , size := table.size
                   , mimeType := table.mimeType } }

/-- `dbFileStorage.Delete`, which runs in a plain session
(`WithDbSession`, not `WithTransactionalDbSession`). Modelled from the spec
for the session semantics: the record store provides atomic
single-statement writes, so each successful DELETE commits on its own and a
later failure does not roll it back. `failFileDel` / `failMetaDel` inject a
storage failure into the `file` / `file_meta` DELETE statement; the `Bool`
in the result records whether an error was returned. -/
def Delete (failFileDel failMetaDel : Bool) (st : DbState) (filePath : String) :
    DbState × Bool :=
  match lookupFile st filePath with
  | none => (st, false)
  | some _ =>
    if failFileDel then (st, true)
    else
      let st1 : DbState :=
        { st with files := st.files.filter (fun r => !(strLower r.path == strLower filePath)) }
      if failMetaDel then (st1, true)
      else
        ({ st1 with metas := st.metas.filter (fun m => !(m.path == strLower filePath)) }, false)

/-- `upsertProperty`: update `value`/`updated` of the `(path, key)` row if it
exists, else insert a fresh row with the lower-cased path. -/
def upsertProperty (now : Nat) (path key val : String) (metas : List MetaRow) :
    List MetaRow :=
  if metas.any (fun m => m.path == strLower path && m.key == key) then
    metas.map (fun m =>
      if m.path == strLower path && m.key == key then
        { m with updated := now, value := val }
      else m)
  else
    metas ++ [{ path := strLower path, key := key, value := val, updated := now, created := now }]

/-- `upsertProperties`: upsert each `(key, value)` pair in turn. -/
def upsertProperties (now : Nat) (cmd : UpsertFileCommand) (metas : List MetaRow) :
    List MetaRow :=
  cmd.properties.foldl (fun ms kv => upsertProperty now cmd.path kv.1 kv.2 ms) metas

/-- `dbFileStorage.Upsert` (the error-free path of the transaction): if a row
with the same lower-cased path exists, rewrite every matching row to the
read row with `updated := now` and, when contents are provided, new
`contents`/`mimeType`/`size`; otherwise insert a fresh row whose
`parentFolderPath` is derived from the path. Then upsert the properties. -/
def Upsert (now : Nat) (st : DbState) (cmd : UpsertFileCommand) : DbState :=
  match lookupFile st cmd.path with
  | some existing =>
    let upd : FileRow :=
      match cmd.contents with
      | some c =>
        { existing with updated := now, contents := c, mimeType := cmd.mimeType, size := c.length }
      | none => { existing with updated := now }
    { files := st.files.map (fun r => if strLower r.path == strLower cmd.path then upd else r)
    , metas := upsertProperties now cmd st.metas }
  | none =>
    let contentsToInsert := cmd.contents.getD []
    { files := st.files ++
        [{ path := cmd.path
         , parentFolderPath := getParentFolderPath cmd.path
         , contents := contentsToInsert
         , mimeType := cmd.mimeType
         , size := contentsToInsert.length
         , updated := now
         , created := now }]
    , metas := upsertProperties now cmd st.metas }

/-- The recursive-scope predicate of `ListFiles`:
`LOWER(parent_folder_path) LIKE '<lower folder>%'`. -/
def listFilesRecursivePred (folderPath : String) (r : FileRow) : Bool :=
  strStartsWith (strLower r.parentFolderPath) (strLower folderPath)

/-- SQL string comparison `a < b` (binary lexicographic order on the
characters), used by `path > ?` and `parent_folder_path > ?` clauses and by
`ORDER BY`. -/
def strLtP (a b : String) : Prop := a.data < b.data

/-- Non-strict version of `strLtP`. -/
def strLeP (a b : String) : Prop := a.data ≤ b.data

instance : DecidableRel strLtP := fun a b => inferInstanceAs (Decidable (a.data < b.data))

instance : DecidableRel strLeP := fun a b => inferInstanceAs (Decidable (a.data ≤ b.data))

instance : IsTotal String strLeP := ⟨fun a b => le_total a.data b.data⟩

instance : IsTrans String strLeP := ⟨fun _ _ _ h1 h2 => le_trans h1 h2⟩

/-- The recursive-scope predicate of `ListFolders`:
`LOWER(parent_folder_path) > '<lower folder>'`. -/
def listFoldersRecursivePred (parentFolderPath : String) (r : FileRow) : Bool :=
  decide (strLtP (strLower parentFolderPath) (strLower r.parentFolderPath))

/-- The conjunction of the WHERE clauses of `ListFiles` other than the
cursor: scope (recursive or exact), directory-marker exclusion, and one
`LOWER(path) LIKE '<lower prefix>%'` clause per allowed prefix. -/
def basePred (folderPath : String) (recursive : Bool) (prefixes : List String)
    (r : FileRow) : Bool :=
  (if recursive then listFilesRecursivePred folderPath r
   else strLower r.parentFolderPath == strLower folderPath)
  && !(strEndsWith (strLower r.path) (Delimiter ++ directoryMarker))
  && prefixes.all (fun p => strStartsWith (strLower r.path) (strLower p))

/-- The `ListFiles` WHERE clauses with no prefix restriction at all.
Follows the spec's words ("A caller with zero configured prefixes is
unrestricted"), for comparison with `basePred` under an empty prefix set. -/
def basePredNoFilters (folderPath : String) (recursive : Bool) (r : FileRow) : Bool :=
  (if recursive then listFilesRecursivePred folderPath r
   else strLower r.parentFolderPath == strLower folderPath)
  && !(strEndsWith (strLower r.path) (Delimiter ++ directoryMarker))

/-- The row set selected by the `ListFiles` query: all WHERE clauses, with
the `path > after` cursor clause added exactly when `after` is non-empty. -/
def listFilesMatches (st : DbState) (folderPath : String) (recursive : Bool)
    (prefixes : List String) (after : String) : List FileRow :=
  if after == "" then st.files.filter (basePred folderPath recursive prefixes)
  else (st.files.filter (basePred folderPath recursive prefixes)).filter
    (fun r => decide (strLtP after r.path))

/-- The order relation of `ORDER BY path`. -/
def fileLe (a b : FileRow) : Prop := strLeP a.path b.path

/-- Strict version of `fileLe`, used to state strict ascending order. -/
def fileLt (a b : FileRow) : Prop := strLtP a.path b.path

instance : DecidableRel fileLe := fun a b => inferInstanceAs (Decidable (strLeP a.path b.path))

instance : DecidableRel fileLt := fun a b => inferInstanceAs (Decidable (strLtP a.path b.path))

instance : IsTotal FileRow fileLe := ⟨fun a b => le_total a.path.data b.path.data⟩

instance : IsTrans FileRow fileLe :=
  ⟨fun _ _ _ h1 h2 => le_trans (α := List Char) h1 h2⟩

instance : IsTrans FileRow fileLt :=
  ⟨fun _ _ _ h1 h2 => lt_trans (α := List Char) h1 h2⟩

instance : IsAntisymm FileRow fileLt :=
  ⟨fun _ _ h1 h2 => absurd (lt_trans (α := List Char) h1 h2) (lt_irrefl _)⟩

/-- The `FileMetadata` built for a returned row, its properties read from the
`file_meta` table (`getProperties` plus the empty-map default). -/
def toMetaWith (metas : List MetaRow) (r : FileRow) : FileMetadata :=
  { name := getName r.path
  , fullPath := r.path
  , created := r.created
  , properties := metaPairs metas (strLower r.path)
  , modified := r.updated
  , size := r.size
  , mimeType := r.mimeType }

/-- The `ListFiles` row set in `ORDER BY path` order. -/
def listFilesSorted (st : DbState) (folderPath : String) (recursive : Bool)
    (prefixes : List String) (after : String) : List FileRow :=
  List.insertionSort fileLe (listFilesMatches st folderPath recursive prefixes after)

/-- `dbFileStorage.ListFiles`. The code reads `paging.First` before its
`paging != nil` test, so a nil `paging` (here `none`) faults (`none` result)
before any query is issued. The fetch is `LIMIT pageSize + 1` over the
path-ordered selected rows; only the first `pageSize` rows become data. -/
def ListFiles (st : DbState) (folderPath : String) (paging : Option Paging)
    (options : ListOptions) : Option ListFilesResponse :=
  match paging with
  | none => none
  | some pg =>
    let sorted := listFilesSorted st folderPath options.recursive
      options.pathFilters.allowedPrefixes pg.after
    let foundFiles := sorted.take (pg.first + 1)
    let files := (foundFiles.take pg.first).map (toMetaWith st.metas)
    some { files := files
         , lastPath := (files.map (fun f => f.fullPath)).getLastD ""
         , hasMore := foundFiles.length == pg.first + 1 }

/-- The distinct `parent_folder_path` values selected by the `ListFolders`
query, in ascending order (`SELECT DISTINCT parent_folder_path ... ORDER BY
parent_folder_path`). -/
def listFoldersFoundPaths (st : DbState) (parentFolderPath : String)
    (options : ListOptions) : List String :=
  let inScope := st.files.filter (fun r =>
    (if options.recursive then listFoldersRecursivePred parentFolderPath r
     else strLower r.parentFolderPath == strLower parentFolderPath)
    && options.pathFilters.allowedPrefixes.all
        (fun p => strStartsWith (strLower r.parentFolderPath) (strLower p)))
  List.insertionSort strLeP ((inScope.map (fun r => r.parentFolderPath)).dedup)

/-- A folder entry emitted by `ListFolders` (only `Name` and `FullPath` are
set; the other fields keep their zero values). -/
def mkFolderMeta (acc : String) : FileMetadata :=
  { name := getName acc, fullPath := acc }

/-- One emission step of the `ListFolders` explosion loop: append a folder
entry for `acc2` when it is not in the visited-set and is strictly longer
than the requested parent folder path. -/
def emitFolder (parentFolderPath acc2 : String) (mem : List String)
    (folders : List FileMetadata) : List FileMetadata :=
  if !(mem.contains acc2) && decide (parentFolderPath.length < acc2.length) then
    folders ++ [mkFolderMeta acc2]
  else folders

/-- The ancestor-explosion loop of `ListFolders`, starting at segment
index 1: `rest` holds `parts[j], parts[j+1], ...`. The Go loop reads
`parts[j]` before any bound check, so an empty `rest` on entry is the
out-of-range access (Go panics; modelled as `none`); afterwards the loop
breaks as soon as the next index would be out of range, so recursive calls
never fault. -/
def explodeRest (parentFolderPath : String) :
    String → List String → List String → List FileMetadata →
    Option (List String × List FileMetadata)
  | _, [], _, _ => none
  | acc, [seg], mem, folders =>
    some ((acc ++ Delimiter ++ seg) :: mem,
      emitFolder parentFolderPath (acc ++ Delimiter ++ seg) mem folders)
  | acc, seg :: s2 :: t, mem, folders =>
    explodeRest parentFolderPath (acc ++ Delimiter ++ seg) (s2 :: t)
      ((acc ++ Delimiter ++ seg) :: mem)
      (emitFolder parentFolderPath (acc ++ Delimiter ++ seg) mem folders)

/-- One iteration of the outer `ListFolders` loop: split a found parent path
on the delimiter, seed the accumulator with `parts[0]` and run the
ancestor-explosion loop from index 1; a previous fault is propagated. -/
def foldersStep (parentFolderPath : String)
    (acc : Option (List String × List FileMetadata)) (p : String) :
    Option (List String × List FileMetadata) :=
  match acc with
  | none => none
  | some (mem, folders) =>
    match splitOnDelim p with
    | [] => none
    | p0 :: rest => explodeRest parentFolderPath p0 rest mem folders

/-- `dbFileStorage.ListFolders`: synthesize folders from the distinct parent
paths; `none` models the Go index-out-of-range panic in the explosion
loop. -/
def ListFolders (st : DbState) (parentFolderPath : String) (options : ListOptions) :
    Option (List FileMetadata) :=
  ((listFoldersFoundPaths st parentFolderPath options).foldl
      (foldersStep parentFolderPath) (some ([], []))).map Prod.snd

/-- A file row with only the path (and the parent derived from it) set, used
for concrete test states. -/
def mkRow (p : String) : FileRow :=
  { path := p, parentFolderPath := getParentFolderPath p
  , contents := [], updated := 0, created := 0, size := 0, mimeType := "" }

/-- Recursive listing with no path filters. -/
def recOpts : ListOptions := { recursive := true, pathFilters := { allowedPrefixes := [] } }

/-- Non-recursive listing with no path filters. -/
def nonRecOpts : ListOptions := { recursive := false, pathFilters := { allowedPrefixes := [] } }

/-- A state with one file `a` that has one property row. -/
def stDel : DbState :=
  { files := [mkRow "a"]
  , metas := [{ path := "a", key := "k", value := "v", updated := 0, created := 0 }] }

/-- A row whose parent folder `a/c` is a lexicographically later sibling of
the folder `a/b` (not a descendant of it). -/
def rowSibling : FileRow := mkRow "a/c/f"

/-- The state holding only `rowSibling`. -/
def stSibling : DbState := { files := [rowSibling], metas := [] }

/-- A state with a single top-level file (its parent folder path is empty and
contains no delimiter). -/
def stTop : DbState := { files := [mkRow "file.txt"], metas := [] }

/-- A state with only the file `a/b/c/file.txt`. -/
def stabc : DbState := { files := [mkRow "a/b/c/file.txt"], metas := [] }

/-- A state with the four root files `a`, `b`, `c`, `d`. -/
def st4 : DbState := { files := [mkRow "a", mkRow "b", mkRow "c", mkRow "d"], metas := [] }

/-- The response of resuming the listing of `st4` with page size 2 after
path `b`. -/
def respCD : ListFilesResponse :=
  { files := [toMetaWith [] (mkRow "c"), toMetaWith [] (mkRow "d")]
  , lastPath := "d", hasMore := false }

/-- The successive values of the explosion loop's accumulator: all re-joins
of the leading segments, extended one further segment at a time. -/
def accJoins (acc : String) : List String → List String
  | [] => []
  | seg :: rest => (acc ++ Delimiter ++ seg) :: accJoins (acc ++ Delimiter ++ seg) rest

/-- The re-joined leading-segment ancestors of a path that consist of at
least two segments: split on the delimiter, seed with the first segment and
re-join one further segment at a time. -/
def ancestorJoins (p : String) : List String :=
  match splitOnDelim p with
  | [] => []
  | p0 :: rest => accJoins p0 rest

/-- A state whose two parent folders `a/b!x` and `a/b/c` share the leading
segment `a`, with `a/b!x` sorting first (`!` sorts before `/`). -/
def stNonAsc : DbState := { files := [mkRow "a/b!x/f", mkRow "a/b/c/f"], metas := [] }

/-- The invariant maintained by the `ListFolders` explosion loop: the emitted
folder paths are pairwise distinct, all of them are recorded in the
visited-set, each entry's name is the last segment of its path, each entry's
path is strictly longer than the requested parent folder path, and every
visited-set entry strictly longer than the parent folder path has been
emitted. -/
def foldersInv (pf : String) (mem : List String) (folders : List FileMetadata) : Prop :=
  (folders.map (fun f => f.fullPath)).Nodup ∧
  (∀ f ∈ folders, f.fullPath ∈ mem) ∧
  (∀ f ∈ folders, f.name = getName f.fullPath) ∧
  (∀ f ∈ folders, pf.length < f.fullPath.length) ∧
  (∀ a ∈ mem, pf.length < a.length → ∃ f ∈ folders, f.fullPath = a)

/-- A state holding an ordinary file `x` and the directory-marker row of the
folder `x`. -/
def stMark : DbState :=
  { files := [mkRow "x", mkRow ("x" ++ Delimiter ++ directoryMarker)], metas := [] }

/-- The response of listing `stMark` recursively from the root. -/
def respMark : ListFilesResponse :=
  { files := [toMetaWith [] (mkRow "x")], lastPath := "x", hasMore := false }

/-- A state with one file under `team1/` and one under `team2/`. -/
def stFilters : DbState :=
  { files := [mkRow "team1/a", mkRow "team2/secret"], metas := [] }

/-- Recursive listing restricted to the allowed prefix `team1/`. -/
def optsTeam1 : ListOptions :=
  { recursive := true, pathFilters := { allowedPrefixes := ["team1/"] } }

/-- The response of listing `stFilters` under the `team1/` prefix filter. -/
def respTeam : ListFilesResponse :=
  { files := [toMetaWith [] (mkRow "team1/a")], lastPath := "team1/a", hasMore := false }

example : splitOnDelim "a/b/c" = ["a", "b", "c"] := by decide
example : splitOnDelim "" = [""] := by decide
example : getParentFolderPath "a/b/c/file.txt" = "a/b/c" := by decide
example : getParentFolderPath "file.txt" = "" := by decide
example : getName "a/b/c" = "c" := by decide
example : strLower "A/B.Txt" = "a/b.txt" := by decide

/-- C1 counterexample: with a failure injected into the property-row DELETE
statement, `Delete` reports an error but the state has changed: the file row
is gone while its property row persists, because the two DELETEs run in a
plain (non-transactional) session and the first is not rolled back. -/
theorem delete_not_atomic_cex :
    (Delete false true stDel "a").2 = true ∧
    (Delete false true stDel "a").1 ≠ stDel ∧
    (Delete false true stDel "a").1.files = [] ∧
    (Delete false true stDel "a").1.metas = stDel.metas := by
  decide

/-- C1 (amended): Delete(path) is a successful no-op when no file row matches
path case-insensitively; otherwise, when neither DELETE statement fails, it
deletes the file row and all property rows for that path as its final state
and returns success, never failing solely because zero rows were touched.
(The atomicity part of the original claim is dropped: the deletions run in a
plain, non-transactional session, see the counterexample.) -/
theorem delete_noop_or_deletes_all (st : DbState) (p : String) :
    (lookupFile st p = none → Delete false false st p = (st, false)) ∧
    (lookupFile st p ≠ none →
      Delete false false st p =
        ({ files := st.files.filter (fun r => !(strLower r.path == strLower p))
         , metas := st.metas.filter (fun m => !(m.path == strLower p)) }, false)) := by
  refine ⟨fun h => ?_, fun h => ?_⟩
  · simp [Delete, h]
  · rcases hx : lookupFile st p with _ | ex
    · exact absurd hx h
    · simp [Delete, hx]

/-- Witness for C1 (amended) at the concrete state `stDel`. -/
theorem delete_noop_or_deletes_all_witness :
    Delete false false stDel "a" =
      ({ files := stDel.files.filter (fun r => !(strLower r.path == strLower "a"))
       , metas := stDel.metas.filter (fun m => !(m.path == strLower "a")) }, false) :=
  (delete_noop_or_deletes_all stDel "a").2 (by decide)

/-- C4: the recursive-scope predicates of `ListFiles` and `ListFolders` are
not equivalent. For the target folder `a/b`, the row whose parent folder is
`a/c` — a lexicographically later sibling, not a descendant — satisfies the
greater-than predicate used by `ListFolders` but not the prefix (LIKE)
predicate used by `ListFiles`: `ListFolders` selects its parent path while
recursive `ListFiles` over the same state returns no files. -/
theorem recursive_scope_preds_differ :
    listFoldersRecursivePred "a/b" rowSibling = true ∧
    listFilesRecursivePred "a/b" rowSibling = false ∧
    listFoldersFoundPaths stSibling "a/b" recOpts = ["a/c"] ∧
    (ListFiles stSibling "a/b" (some { first := 10, after := "" }) recOpts).map
        (fun r => r.files) = some [] := by
  decide

theorem explodeRest_isSome (parent : String) :
    ∀ (rest : List String) (acc : String) (mem : List String) (folders : List FileMetadata),
      rest ≠ [] → (explodeRest parent acc rest mem folders).isSome = true
  | [], _, _, _, h => absurd rfl h
  | [_], _, _, _, _ => by simp [explodeRest]
  | _ :: s2 :: rest, acc, mem, folders, _ => by
    rw [explodeRest]
    exact explodeRest_isSome parent (s2 :: rest) _ _ _ (by simp)

theorem foldersStep_none (parent : String) (p : String) :
    foldersStep parent none p = none := rfl

theorem foldl_foldersStep_none (parent : String) (l : List String) :
    l.foldl (foldersStep parent) none = none := by
  induction l with
  | nil => rfl
  | cons p l ih => rw [List.foldl_cons, foldersStep_none]; exact ih

theorem foldl_foldersStep_isSome (parent : String) :
    ∀ (l : List String) (mem : List String) (folders : List FileMetadata),
      (∀ p ∈ l, 2 ≤ (splitOnDelim p).length) →
      (l.foldl (foldersStep parent) (some (mem, folders))).isSome = true
  | [], _, _, _ => rfl
  | p :: l, mem, folders, h => by
    rw [List.foldl_cons]
    have h2 : 2 ≤ (splitOnDelim p).length := h p (by simp)
    rcases hsp : splitOnDelim p with _ | ⟨p0, rest⟩
    · rw [hsp] at h2; simp at h2
    · have hrest : rest ≠ [] := by
        intro he
        rw [hsp, he] at h2
        simp at h2
      have hstep : foldersStep parent (some (mem, folders)) p =
          explodeRest parent p0 rest mem folders := by
        simp [foldersStep, hsp]
      rw [hstep]
      rcases hx : explodeRest parent p0 rest mem folders with _ | res
      · have := explodeRest_isSome parent rest p0 mem folders hrest
        rw [hx] at this
        simp at this
      · exact foldl_foldersStep_isSome parent l res.1 res.2 (fun q hq => h q (by simp [hq]))

/-- C9: the ancestor-explosion loop of `ListFolders` unconditionally reads
segment index 1 of each selected parent path split on the delimiter. It is
safe exactly under the precondition that every selected parent path has at
least two segments (contains the delimiter): then `ListFolders` returns a
folder list; while whenever some selected parent path has a single segment
(for example the empty parent of a top-level file), the out-of-bounds access
at index 1 makes the operation fault instead of returning a list. -/
theorem listFolders_segment_safety :
    (∀ st pf opts, (∀ p ∈ listFoldersFoundPaths st pf opts, 2 ≤ (splitOnDelim p).length) →
        (ListFolders st pf opts).isSome = true) ∧
    (∀ st pf opts p, p ∈ listFoldersFoundPaths st pf opts →
        (splitOnDelim p).length = 1 → ListFolders st pf opts = none) := by
  constructor
  · intro st pf opts h
    unfold ListFolders
    rcases hx : (listFoldersFoundPaths st pf opts).foldl (foldersStep pf) (some ([], [])) with _ | res
    · have := foldl_foldersStep_isSome pf (listFoldersFoundPaths st pf opts) [] [] h
      rw [hx] at this
      simp at this
    · simp
  · intro st pf opts p hp hlen
    obtain ⟨l1, l2, hsplit⟩ := List.append_of_mem hp
    obtain ⟨p0, hp0⟩ := List.length_eq_one.mp hlen
    unfold ListFolders
    rw [hsplit, List.foldl_append, List.foldl_cons]
    rcases hacc : l1.foldl (foldersStep pf) (some ([], [])) with _ | st1
    · rw [foldersStep_none, foldl_foldersStep_none]; rfl
    · have hstep : foldersStep pf (some st1) p = none := by
        rcases st1 with ⟨mem, folders⟩
        simp [foldersStep, hp0, explodeRest]
      rw [hstep, foldl_foldersStep_none]
      rfl

/-- Witness for C9 at the concrete state `stTop`: a single top-level file has
the empty parent folder path, whose split has one segment, so non-recursive
`ListFolders ""` faults. -/
theorem listFolders_segment_safety_witness :
    ListFolders stTop "" nonRecOpts = none :=
  listFolders_segment_safety.2 stTop "" nonRecOpts "" (by decide) (by decide)

theorem listFiles_some_eq (st : DbState) (folder : String) (pg : Paging) (opts : ListOptions) :
    ListFiles st folder (some pg) opts =
      some { files := (((listFilesSorted st folder opts.recursive
                opts.pathFilters.allowedPrefixes pg.after).take (pg.first + 1)).take
                  pg.first).map (toMetaWith st.metas)
           , lastPath := (((((listFilesSorted st folder opts.recursive
                opts.pathFilters.allowedPrefixes pg.after).take (pg.first + 1)).take
                  pg.first).map (toMetaWith st.metas)).map (fun f => f.fullPath)).getLastD ""
           , hasMore := ((listFilesSorted st folder opts.recursive
                opts.pathFilters.allowedPrefixes pg.after).take (pg.first + 1)).length ==
                  pg.first + 1 } := rfl

theorem mem_listFiles_row {st : DbState} {folder : String} {pg : Paging}
    {opts : ListOptions} {r : ListFilesResponse} {f : FileMetadata}
    (h : ListFiles st folder (some pg) opts = some r) (hf : f ∈ r.files) :
    ∃ row, row ∈ listFilesMatches st folder opts.recursive opts.pathFilters.allowedPrefixes
        pg.after ∧ f = toMetaWith st.metas row := by
  rw [listFiles_some_eq] at h
  injection h with h
  subst h
  obtain ⟨row, hrow, heq⟩ := List.mem_map.mp hf
  refine ⟨row, ?_, heq.symm⟩
  have h1 : row ∈ (listFilesSorted st folder opts.recursive
      opts.pathFilters.allowedPrefixes pg.after).take (pg.first + 1) :=
    List.mem_of_mem_take hrow
  have h2 : row ∈ listFilesSorted st folder opts.recursive
      opts.pathFilters.allowedPrefixes pg.after :=
    List.mem_of_mem_take h1
  simpa [listFilesSorted] using h2

/-- C10: `ListFiles` reads `paging.First` before its nil test on `paging`, so
the later `paging != nil` guard protects nothing: a call with absent paging
faults before any query is issued (`none` paging gives a `none` result), and
under a present paging the cursor clause `path > after` is added exactly
when `paging.After` is non-empty — every returned file then has a path
strictly greater than the cursor, while an empty `After` leaves the selected
row set exactly the base filter without a cursor clause. -/
theorem listFiles_paging_precondition :
    (∀ st folder opts, ListFiles st folder none opts = none) ∧
    (∀ st folder opts pg r f, pg.after ≠ "" →
        ListFiles st folder (some pg) opts = some r → f ∈ r.files →
        strLtP pg.after f.fullPath) ∧
    (∀ st folder rec pfx, listFilesMatches st folder rec pfx "" =
        st.files.filter (basePred folder rec pfx)) := by
  refine ⟨fun _ _ _ => rfl, fun st folder opts pg r f hne h hf => ?_, fun _ _ _ _ => rfl⟩
  obtain ⟨row, hrow, heq⟩ := mem_listFiles_row h hf
  rw [listFilesMatches, if_neg (by simpa using hne)] at hrow
  obtain ⟨-, hcond⟩ := List.mem_filter.mp hrow
  subst heq
  exact of_decide_eq_true hcond

/-- Witness for C10: resuming `st4` after path `b` returns files whose paths
exceed the cursor, here the file `c`. -/
theorem listFiles_paging_precondition_witness :
    strLtP "b" (toMetaWith [] (mkRow "c")).fullPath :=
  listFiles_paging_precondition.2.1 st4 "" recOpts { first := 2, after := "b" } respCD
    (toMetaWith [] (mkRow "c")) (by decide) (by decide) (by decide)

theorem foldersInv_step (pf acc2 : String) (mem : List String) (folders : List FileMetadata)
    (h : foldersInv pf mem folders) :
    foldersInv pf (acc2 :: mem) (emitFolder pf acc2 mem folders) := by
  obtain ⟨hnd, hmem, hname, hlen, hcomp⟩ := h
  rw [emitFolder]
  by_cases hc : (!(mem.contains acc2) && decide (pf.length < acc2.length)) = true
  · rw [if_pos hc]
    rw [Bool.and_eq_true] at hc
    obtain ⟨hnotmem, hgt⟩ := hc
    have hnotin : acc2 ∉ mem := by
      intro hin
      have hcon : mem.contains acc2 = true := by
        simpa [List.contains] using hin
      rw [hcon] at hnotmem
      simp at hnotmem
    refine ⟨?_, ?_, ?_, ?_, ?_⟩
    · rw [List.map_append]
      have hsingle : (List.map (fun f => f.fullPath) [mkFolderMeta acc2]) = [acc2] := rfl
      rw [hsingle]
      rw [List.nodup_append]
      refine ⟨hnd, List.nodup_singleton acc2, fun a ha hb => ?_⟩
      rw [List.mem_singleton] at hb
      subst hb
      obtain ⟨g, hg, hge⟩ := List.mem_map.mp ha
      exact hnotin (hge ▸ hmem g hg)
    · intro f hf
      rcases List.mem_append.mp hf with hf | hf
      · exact List.mem_cons_of_mem _ (hmem f hf)
      · rw [List.mem_singleton] at hf
        subst hf
        exact List.mem_cons_self _ _
    · intro f hf
      rcases List.mem_append.mp hf with hf | hf
      · exact hname f hf
      · rw [List.mem_singleton] at hf
        subst hf
        rfl
    · intro f hf
      rcases List.mem_append.mp hf with hf | hf
      · exact hlen f hf
      · rw [List.mem_singleton] at hf
        subst hf
        exact of_decide_eq_true hgt
    · intro a ha hlena
      rcases List.mem_cons.mp ha with ha | ha
      · subst ha
        exact ⟨mkFolderMeta a, List.mem_append.mpr (Or.inr (List.mem_singleton.mpr rfl)), rfl⟩
      · obtain ⟨f, hf, hfe⟩ := hcomp a ha hlena
        exact ⟨f, List.mem_append.mpr (Or.inl hf), hfe⟩
  · rw [if_neg hc]
    refine ⟨hnd, fun f hf => List.mem_cons_of_mem _ (hmem f hf), hname, hlen, ?_⟩
    intro a ha hlena
    rcases List.mem_cons.mp ha with ha | ha
    · subst ha
      have hcont : mem.contains a = true := by
        by_contra hcf
        apply hc
        rw [Bool.and_eq_true]
        refine ⟨?_, decide_eq_true hlena⟩
        rw [Bool.eq_false_iff.mpr hcf]
        rfl
      have hamem : a ∈ mem := by
        simpa [List.contains] using hcont
      exact hcomp a hamem hlena
    · exact hcomp a ha hlena

theorem explodeRest_inv (pf : String) :
    ∀ (rest : List String) (acc : String) (mem : List String) (folders : List FileMetadata)
      (res : List String × List FileMetadata),
      explodeRest pf acc rest mem folders = some res →
      foldersInv pf mem folders → foldersInv pf res.1 res.2
  | [], _, _, _, _, h, _ => by simp [explodeRest] at h
  | [seg], acc, mem, folders, res, h, hinv => by
    rw [explodeRest] at h
    injection h with h
    subst h
    exact foldersInv_step pf (acc ++ Delimiter ++ seg) mem folders hinv
  | seg :: s2 :: t, acc, mem, folders, res, h, hinv => by
    rw [explodeRest] at h
    exact explodeRest_inv pf (s2 :: t) (acc ++ Delimiter ++ seg) _ _ res h
      (foldersInv_step pf (acc ++ Delimiter ++ seg) mem folders hinv)

theorem foldl_foldersStep_inv (pf : String) :
    ∀ (l : List String) (mem : List String) (folders : List FileMetadata)
      (res : List String × List FileMetadata),
      l.foldl (foldersStep pf) (some (mem, folders)) = some res →
      foldersInv pf mem folders → foldersInv pf res.1 res.2
  | [], mem, folders, res, h, hinv => by
    rw [List.foldl_nil] at h
    injection h with h
    subst h
    exact hinv
  | p :: l, mem, folders, res, h, hinv => by
    rw [List.foldl_cons] at h
    rcases hstep : foldersStep pf (some (mem, folders)) p with _ | st2
    · rw [hstep, foldl_foldersStep_none] at h
      exact absurd h (by simp)
    · rw [hstep] at h
      have hinv2 : foldersInv pf st2.1 st2.2 := by
        rw [foldersStep] at hstep
        rcases hsp : splitOnDelim p with _ | ⟨p0, rest⟩
        · rw [hsp] at hstep
          exact absurd hstep (by simp)
        · rw [hsp] at hstep
          exact explodeRest_inv pf rest p0 mem folders st2 hstep hinv
      have := foldl_foldersStep_inv pf l st2.1 st2.2 res (by rw [← h]) hinv2
      exact this

theorem mem_emitFolder {pf acc2 : String} {mem : List String} {folders : List FileMetadata}
    {f : FileMetadata} (hf : f ∈ emitFolder pf acc2 mem folders) :
    f ∈ folders ∨ f = mkFolderMeta acc2 := by
  rw [emitFolder] at hf
  by_cases hc : (!(mem.contains acc2) && decide (pf.length < acc2.length)) = true
  · rw [if_pos hc] at hf
    rcases List.mem_append.mp hf with hf | hf
    · exact Or.inl hf
    · rw [List.mem_singleton] at hf
      exact Or.inr hf
  · rw [if_neg hc] at hf
    exact Or.inl hf

theorem explodeRest_sound (pf : String) :
    ∀ (rest : List String) (acc : String) (mem : List String) (folders : List FileMetadata)
      (res : List String × List FileMetadata),
      explodeRest pf acc rest mem folders = some res →
      ∀ f ∈ res.2, f ∈ folders ∨ f.fullPath ∈ accJoins acc rest
  | [], _, _, _, _, h => by simp [explodeRest] at h
  | [seg], acc, mem, folders, res, h => by
    rw [explodeRest] at h
    injection h with h
    subst h
    intro f hf
    rcases mem_emitFolder hf with hf | hf
    · exact Or.inl hf
    · subst hf
      exact Or.inr (List.mem_cons_self _ _)
  | seg :: s2 :: t, acc, mem, folders, res, h => by
    rw [explodeRest] at h
    intro f hf
    rcases explodeRest_sound pf (s2 :: t) (acc ++ Delimiter ++ seg) _ _ res h f hf
      with h1 | h1
    · rcases mem_emitFolder h1 with h1 | h1
      · exact Or.inl h1
      · subst h1
        exact Or.inr (List.mem_cons_self _ _)
    · exact Or.inr (List.mem_cons_of_mem _ h1)

theorem explodeRest_mem_chain (pf : String) :
    ∀ (rest : List String) (acc : String) (mem : List String) (folders : List FileMetadata)
      (res : List String × List FileMetadata),
      explodeRest pf acc rest mem folders = some res →
      (∀ a ∈ mem, a ∈ res.1) ∧ (∀ a ∈ accJoins acc rest, a ∈ res.1)
  | [], _, _, _, _, h => by simp [explodeRest] at h
  | [seg], acc, mem, folders, res, h => by
    rw [explodeRest] at h
    injection h with h
    subst h
    refine ⟨fun a ha => List.mem_cons_of_mem _ ha, fun a ha => ?_⟩
    rcases List.mem_cons.mp ha with ha | ha
    · subst ha
      exact List.mem_cons_self _ _
    · exact absurd ha (List.not_mem_nil a)
  | seg :: s2 :: t, acc, mem, folders, res, h => by
    rw [explodeRest] at h
    obtain ⟨h1, h2⟩ := explodeRest_mem_chain pf (s2 :: t) (acc ++ Delimiter ++ seg) _ _ res h
    refine ⟨fun a ha => h1 a (List.mem_cons_of_mem _ ha), fun a ha => ?_⟩
    rcases List.mem_cons.mp ha with ha | ha
    · subst ha
      exact h1 _ (List.mem_cons_self _ _)
    · exact h2 a ha

theorem foldl_foldersStep_sound (pf : String) :
    ∀ (l : List String) (mem : List String) (folders : List FileMetadata)
      (res : List String × List FileMetadata),
      l.foldl (foldersStep pf) (some (mem, folders)) = some res →
      ∀ f ∈ res.2, f ∈ folders ∨ ∃ p ∈ l, f.fullPath ∈ ancestorJoins p
  | [], mem, folders, res, h => by
    rw [List.foldl_nil] at h
    injection h with h
    subst h
    exact fun f hf => Or.inl hf
  | p :: l, mem, folders, res, h => by
    rw [List.foldl_cons] at h
    rcases hstep : foldersStep pf (some (mem, folders)) p with _ | st2
    · rw [hstep, foldl_foldersStep_none] at h
      exact absurd h (by simp)
    · rw [hstep] at h
      intro f hf
      rcases foldl_foldersStep_sound pf l st2.1 st2.2 res (by rw [← h]) f hf with h1 | h1
      · rw [foldersStep] at hstep
        rcases hsp : splitOnDelim p with _ | ⟨p0, rest⟩
        · rw [hsp] at hstep
          exact absurd hstep (by simp)
        · rw [hsp] at hstep
          rcases explodeRest_sound pf rest p0 mem folders st2 hstep f h1 with h2 | h2
          · exact Or.inl h2
          · refine Or.inr ⟨p, List.mem_cons_self _ _, ?_⟩
            rw [ancestorJoins, hsp]
            exact h2
      · obtain ⟨q, hq, hf'⟩ := h1
        exact Or.inr ⟨q, List.mem_cons_of_mem _ hq, hf'⟩

theorem foldl_foldersStep_mem_chain (pf : String) :
    ∀ (l : List String) (mem : List String) (folders : List FileMetadata)
      (res : List String × List FileMetadata),
      l.foldl (foldersStep pf) (some (mem, folders)) = some res →
      (∀ a ∈ mem, a ∈ res.1) ∧ (∀ p ∈ l, ∀ a ∈ ancestorJoins p, a ∈ res.1)
  | [], mem, folders, res, h => by
    rw [List.foldl_nil] at h
    injection h with h
    subst h
    exact ⟨fun a ha => ha, fun p hp => absurd hp (List.not_mem_nil p)⟩
  | p :: l, mem, folders, res, h => by
    rw [List.foldl_cons] at h
    rcases hstep : foldersStep pf (some (mem, folders)) p with _ | st2
    · rw [hstep, foldl_foldersStep_none] at h
      exact absurd h (by simp)
    · rw [hstep] at h
      obtain ⟨hmono, hrest⟩ := foldl_foldersStep_mem_chain pf l st2.1 st2.2 res (by rw [← h])
      rw [foldersStep] at hstep
      rcases hsp : splitOnDelim p with _ | ⟨p0, rest⟩
      · rw [hsp] at hstep
        exact absurd hstep (by simp)
      · rw [hsp] at hstep
        obtain ⟨hm1, hm2⟩ := explodeRest_mem_chain pf rest p0 mem folders st2 hstep
        refine ⟨fun a ha => hmono a (hm1 a ha), fun q hq a ha => ?_⟩
        rcases List.mem_cons.mp hq with hq | hq
        · subst hq
          rw [ancestorJoins, hsp] at ha
          exact hmono a (hm2 a ha)
        · exact hrest q hq a ha

/-- C3 counterexample: with only the file `a/b/c/file.txt` and no explicit
folder creation, recursive `ListFolders ""` does not yield the folder `a`
(the explosion loop seeds its accumulator with the first segment and only
emits re-joins of at least two segments), so the output is exactly `a/b`,
`a/b/c`; and with the two files `a/b!x/f` and `a/b/c/f` the output is
`a/b!x`, `a/b`, `a/b/c`, which is not in ascending order: `a/b` sorts
strictly before `a/b!x`. Both the every-ancestor part and the
ascending-order part of the claim are false on the code. -/
theorem listFolders_first_segment_missing_cex :
    ((ListFolders stabc "" recOpts).map (fun l => l.map (fun f => f.fullPath)) =
        some ["a/b", "a/b/c"] ∧
      ¬ (ListFolders stabc "" recOpts).map (fun l => l.map (fun f => f.fullPath)) =
        some ["a", "a/b", "a/b/c"]) ∧
    ((ListFolders stNonAsc "" recOpts).map (fun l => l.map (fun f => f.fullPath)) =
        some ["a/b!x", "a/b", "a/b/c"] ∧
      strLtP "a/b" "a/b!x" ∧ ¬ strLtP "a/b!x" "a/b") := by
  decide

/-- C3 (amended): `ListFolders(parentFolderPath)` synthesizes folders from
distinct parent-folder-path values by splitting each on the delimiter and
re-joining leading segments: the emitted folders are exactly the re-joined
ancestors of at least two leading segments of the selected parent paths
whose full path is longer than `parentFolderPath` — so the ancestor
consisting of the first segment alone is never emitted — each emitted
exactly once, with name equal to its last segment. The output is not in
general in ascending order (see the counterexample); in particular, given
only the file `a/b/c/file.txt`, `ListFolders ""` yields exactly the folders
`a/b` and `a/b/c` (not `a`), once each. -/
theorem listFolders_synthesized_folders (st : DbState) (pf : String) (opts : ListOptions)
    (l : List FileMetadata) (h : ListFolders st pf opts = some l) :
    (l.map (fun f => f.fullPath)).Nodup ∧
    (∀ f ∈ l, f.name = getName f.fullPath) ∧
    (∀ f ∈ l, pf.length < f.fullPath.length) ∧
    (∀ f ∈ l, ∃ p ∈ listFoldersFoundPaths st pf opts, f.fullPath ∈ ancestorJoins p) ∧
    (∀ p ∈ listFoldersFoundPaths st pf opts, ∀ a ∈ ancestorJoins p,
      pf.length < a.length → ∃ f ∈ l, f.fullPath = a) := by
  rw [ListFolders] at h
  rcases hres : (listFoldersFoundPaths st pf opts).foldl (foldersStep pf) (some ([], []))
    with _ | res
  · rw [hres] at h
    exact absurd h (by simp)
  · rw [hres] at h
    have hl : res.2 = l := by
      simpa using h
    have hi : foldersInv pf res.1 res.2 :=
      foldl_foldersStep_inv pf (listFoldersFoundPaths st pf opts) [] [] res hres
        ⟨List.nodup_nil, by simp, by simp, by simp, by simp⟩
    have hsound := foldl_foldersStep_sound pf (listFoldersFoundPaths st pf opts) [] [] res hres
    have hchain :=
      foldl_foldersStep_mem_chain pf (listFoldersFoundPaths st pf opts) [] [] res hres
    rw [hl] at hi
    refine ⟨hi.1, hi.2.2.1, hi.2.2.2.1, ?_, ?_⟩
    · intro f hf
      rcases hsound f (by rw [hl]; exact hf) with h1 | h1
      · exact absurd h1 (List.not_mem_nil f)
      · exact h1
    · intro p hp a ha hlena
      exact hi.2.2.2.2 a (hchain.2 p hp a ha) hlena

/-- Witness for C3 (amended) at the concrete state `stabc`. -/
theorem listFolders_synthesized_folders_witness :
    (([mkFolderMeta "a/b", mkFolderMeta "a/b/c"].map (fun f => f.fullPath)).Nodup ∧
      (∀ f ∈ [mkFolderMeta "a/b", mkFolderMeta "a/b/c"], f.name = getName f.fullPath) ∧
      (∀ f ∈ [mkFolderMeta "a/b", mkFolderMeta "a/b/c"],
        String.length "" < f.fullPath.length) ∧
      (∀ f ∈ [mkFolderMeta "a/b", mkFolderMeta "a/b/c"],
        ∃ p ∈ listFoldersFoundPaths stabc "" recOpts, f.fullPath ∈ ancestorJoins p) ∧
      (∀ p ∈ listFoldersFoundPaths stabc "" recOpts, ∀ a ∈ ancestorJoins p,
        String.length "" < a.length →
          ∃ f ∈ [mkFolderMeta "a/b", mkFolderMeta "a/b/c"], f.fullPath = a)) :=
  listFolders_synthesized_folders stabc "" recOpts
    [mkFolderMeta "a/b", mkFolderMeta "a/b/c"] (by decide)

theorem mem_listFilesMatches_basePred {st : DbState} {folder : String} {rec : Bool}
    {pfx : List String} {after : String} {row : FileRow}
    (h : row ∈ listFilesMatches st folder rec pfx after) :
    basePred folder rec pfx row = true := by
  rw [listFilesMatches] at h
  by_cases haft : (after == "") = true
  · rw [if_pos haft] at h
    exact (List.mem_filter.mp h).2
  · rw [if_neg haft] at h
    exact (List.mem_filter.mp (List.mem_filter.mp h).1).2

/-- C8: directory markers never appear in `ListFiles` results: for every
state (including states containing marker rows) and every successful
listing, no returned file has a path that ends with the delimiter followed
by the reserved marker segment. -/
theorem listFiles_excludes_markers (st : DbState) (folder : String) (paging : Option Paging)
    (opts : ListOptions) (r : ListFilesResponse) (f : FileMetadata)
    (h : ListFiles st folder paging opts = some r) (hf : f ∈ r.files) :
    strEndsWith (strLower f.fullPath) (Delimiter ++ directoryMarker) = false := by
  rcases paging with _ | pg
  · exact absurd h (by simp [ListFiles])
  obtain ⟨row, hrow, heq⟩ := mem_listFiles_row h hf
  have hbase := mem_listFilesMatches_basePred hrow
  rw [basePred, Bool.and_eq_true, Bool.and_eq_true] at hbase
  obtain ⟨⟨-, hmark⟩, -⟩ := hbase
  subst heq
  simpa [toMetaWith] using hmark

/-- Witness for C8 at the concrete state `stMark`, whose marker row for
folder `x` is absent from the listing. -/
theorem listFiles_excludes_markers_witness :
    strEndsWith (strLower (toMetaWith [] (mkRow "x")).fullPath)
      (Delimiter ++ directoryMarker) = false :=
  listFiles_excludes_markers stMark "" (some { first := 10, after := "" }) recOpts respMark
    (toMetaWith [] (mkRow "x")) (by decide) (by decide)

/-- C5: path filters are conjunctive and empty-means-unrestricted. Every file
returned by `ListFiles` has a path that starts (case-insensitively) with
each and every allowed prefix; a row whose path fails any one prefix never
influences the output (adding or removing it anywhere leaves the response
unchanged); and with an empty allowed-prefix set the selected row set is
exactly the one of the unrestricted predicate. -/
theorem listFiles_path_filters :
    (∀ st folder paging opts r f pfx, ListFiles st folder paging opts = some r →
        f ∈ r.files → pfx ∈ opts.pathFilters.allowedPrefixes →
        strStartsWith (strLower f.fullPath) (strLower pfx) = true) ∧
    (∀ (l1 l2 : List FileRow) (metas : List MetaRow) (x : FileRow) folder paging opts,
        (∃ pfx ∈ opts.pathFilters.allowedPrefixes,
          strStartsWith (strLower x.path) (strLower pfx) = false) →
        ListFiles { files := l1 ++ x :: l2, metas := metas } folder paging opts =
          ListFiles { files := l1 ++ l2, metas := metas } folder paging opts) ∧
    (∀ st folder rec after,
        listFilesMatches st folder rec [] after =
          (if after == "" then st.files.filter (basePredNoFilters folder rec)
           else (st.files.filter (basePredNoFilters folder rec)).filter
             (fun r => decide (strLtP after r.path)))) := by
  refine ⟨fun st folder paging opts r f pfx h hf hpfx => ?_,
    fun l1 l2 metas x folder paging opts hfail => ?_,
    fun st folder rec after => ?_⟩
  · rcases paging with _ | pg
    · exact absurd h (by simp [ListFiles])
    obtain ⟨row, hrow, heq⟩ := mem_listFiles_row h hf
    have hbase := mem_listFilesMatches_basePred hrow
    rw [basePred, Bool.and_eq_true] at hbase
    obtain ⟨-, hall⟩ := hbase
    rw [List.all_eq_true] at hall
    subst heq
    simpa [toMetaWith] using hall pfx hpfx
  · obtain ⟨pfx, hpfx, hsw⟩ := hfail
    have hbp : basePred folder opts.recursive opts.pathFilters.allowedPrefixes x = false := by
      rw [basePred]
      have hall : opts.pathFilters.allowedPrefixes.all
          (fun p => strStartsWith (strLower x.path) (strLower p)) = false := by
        rw [List.all_eq_false]
        exact ⟨pfx, hpfx, by simp [hsw]⟩
      rw [hall, Bool.and_false]
    have hm : ∀ after,
        listFilesMatches { files := l1 ++ x :: l2, metas := metas } folder opts.recursive
          opts.pathFilters.allowedPrefixes after =
        listFilesMatches { files := l1 ++ l2, metas := metas } folder opts.recursive
          opts.pathFilters.allowedPrefixes after := by
      intro after
      have hfilter : (l1 ++ x :: l2).filter
          (basePred folder opts.recursive opts.pathFilters.allowedPrefixes) =
          (l1 ++ l2).filter (basePred folder opts.recursive opts.pathFilters.allowedPrefixes) := by
        rw [List.filter_append, List.filter_append, List.filter_cons_of_neg]
        simp [hbp]
      simp only [listFilesMatches]
      rw [hfilter]
    rcases paging with _ | pg
    · rfl
    · rw [listFiles_some_eq, listFiles_some_eq]
      simp only [listFilesSorted, hm pg.after]
  · have hpred : basePred folder rec ([] : List String) = basePredNoFilters folder rec := by
      funext r
      simp [basePred, basePredNoFilters]
    rw [listFilesMatches, hpred]

/-- Witness for C5 at the concrete state `stFilters`: under the allowed
prefix `team1/` the returned file `team1/a` indeed starts with the prefix. -/
theorem listFiles_path_filters_witness :
    strStartsWith (strLower (toMetaWith [] (mkRow "team1/a")).fullPath)
      (strLower "team1/") = true :=
  listFiles_path_filters.1 stFilters "" (some { first := 10, after := "" }) optsTeam1
    respTeam (toMetaWith [] (mkRow "team1/a")) "team1/" (by decide) (by decide) (by decide)

theorem map_id_of_eq {α : Type} {l : List α} {f : α → α} (h : ∀ a ∈ l, f a = a) :
    l.map f = l := by
  induction l with
  | nil => rfl
  | cons a l ih =>
    rw [List.map_cons, h a (List.mem_cons_self a l),
      ih (fun b hb => h b (List.mem_cons_of_mem a hb))]

theorem find?_decomp {α : Type} {l : List α} {pred : α → Bool} {x : α}
    (h : l.find? pred = some x) :
    ∃ l1 l2, l = l1 ++ x :: l2 ∧ (∀ r ∈ l1, pred r = false) ∧ pred x = true := by
  induction l with
  | nil => simp at h
  | cons a l ih =>
    by_cases ha : pred a = true
    · rw [List.find?_cons_of_pos _ ha] at h
      injection h with h
      subst h
      exact ⟨[], l, rfl, by simp, ha⟩
    · rw [List.find?_cons_of_neg _ (by simpa using ha)] at h
      obtain ⟨l1, l2, hsplit, hl1, hx⟩ := ih h
      refine ⟨a :: l1, l2, by rw [hsplit]; rfl, ?_, hx⟩
      intro r hr
      rcases List.mem_cons.mp hr with hr | hr
      · subst hr
        exact Bool.eq_false_iff.mpr ha
      · exact hl1 r hr

theorem find?_append_of_none {α : Type} {l1 l2 : List α} {pred : α → Bool}
    (h : l1.find? pred = none) : (l1 ++ l2).find? pred = l2.find? pred := by
  induction l1 with
  | nil => rfl
  | cons a l ih =>
    rw [List.find?_cons] at h
    rcases hp : pred a with _ | _
    · rw [hp] at h
      rw [List.cons_append, List.find?_cons, hp]
      exact ih h
    · rw [hp] at h
      simp at h

theorem find?_map_of_pred_eq {α : Type} {l : List α} {g : α → α} {pred : α → Bool}
    (hg : ∀ r, pred (g r) = pred r) : (l.map g).find? pred = (l.find? pred).map g := by
  induction l with
  | nil => rfl
  | cons a l ih =>
    rw [List.map_cons, List.find?_cons, List.find?_cons, hg a]
    rcases hp : pred a with _ | _
    · exact ih
    · rfl

/-- C6: for every path `p` and contents `c`, `Upsert(p, c)` followed
immediately by `Get(p)` returns a present file whose contents equal `c` and
whose size equals the byte length of `c`. -/
theorem upsert_get_roundtrip (now : Nat) (st : DbState) (p : String) (c : List Nat)
    (mime : String) (props : List (String × String)) :
    ∃ f, Get (Upsert now st
        { path := p, contents := some c, mimeType := mime, properties := props }) p =
          some f ∧ f.contents = c ∧ f.meta.size = c.length := by
  rcases hex : lookupFile st p with _ | ex
  · -- no row exists: a fresh row is inserted and found again
    have hfound : lookupFile (Upsert now st
        { path := p, contents := some c, mimeType := mime, properties := props }) p =
        some { path := p, parentFolderPath := getParentFolderPath p, contents := c
             , mimeType := mime, size := c.length, updated := now, created := now } := by
      rw [lookupFile]
      simp only [Upsert, hex]
      rw [find?_append_of_none]
      · simp
      · rw [lookupFile] at hex
        exact hex
    rw [Get, hfound]
    exact ⟨_, rfl, rfl, rfl⟩
  · -- a row exists: every matching row is overwritten with the read row
    have hpx : (strLower ex.path == strLower p) = true := by
      rw [lookupFile] at hex
      simpa using List.find?_some hex
    have hg : ∀ r : FileRow,
        ((strLower (if strLower r.path == strLower p then
            { ex with updated := now, contents := c, mimeType := mime, size := c.length }
          else r).path == strLower p)) = (strLower r.path == strLower p) := by
      intro r
      by_cases hr : (strLower r.path == strLower p) = true
      · rw [if_pos hr, hr]
        exact hpx
      · rw [if_neg hr]
    have hfound : lookupFile (Upsert now st
        { path := p, contents := some c, mimeType := mime, properties := props }) p =
        some { ex with updated := now, contents := c, mimeType := mime, size := c.length } := by
      rw [lookupFile]
      simp only [Upsert, hex]
      rw [find?_map_of_pred_eq hg]
      rw [lookupFile] at hex
      rw [hex]
      simp only [Option.map_some']
      rw [if_pos hpx]
    rw [Get, hfound]
    exact ⟨_, rfl, rfl, rfl⟩

theorem map_update_decomp {l1 l2 : List FileRow} {ex upd : FileRow} {pred : FileRow → Bool}
    (hl1 : ∀ r ∈ l1, pred r = false) (hpx : pred ex = true)
    (hl2 : ∀ r ∈ l2, pred r = false) :
    (l1 ++ ex :: l2).map (fun r => if pred r then upd else r) = l1 ++ upd :: l2 := by
  rw [List.map_append, List.map_cons, if_pos hpx]
  rw [map_id_of_eq (fun a ha => if_neg (by simp [hl1 a ha]))]
  rw [map_id_of_eq (fun a ha => if_neg (by simp [hl2 a ha]))]

theorem no_match_right {l1 l2 : List FileRow} {ex : FileRow} {q : String}
    (hnd : ((l1 ++ ex :: l2).map (fun r => strLower r.path)).Nodup)
    (hpx : (strLower ex.path == q) = true) :
    ∀ r ∈ l2, (strLower r.path == q) = false := by
  intro r hr
  rw [List.map_append, List.map_cons] at hnd
  have hnodup2 := (List.nodup_append.mp hnd).2.1
  have hnotin : strLower ex.path ∉ l2.map (fun r => strLower r.path) :=
    (List.nodup_cons.mp hnodup2).1
  cases hb : (strLower r.path == q) with
  | false => rfl
  | true =>
    exfalso
    rw [beq_iff_eq] at hb hpx
    refine hnotin ?_
    rw [hpx, ← hb]
    exact List.mem_map_of_mem _ hr

/-- C7: when `Upsert` hits a path whose file row already exists and the
command's contents are omitted (nil), only the `updated` timestamp of that
row changes — its path, parent folder path, contents, mime type, size and
created timestamp are unchanged; when contents are provided, contents and
mime type are replaced and size is recomputed as the new contents' length,
with path, parent folder path and created still unchanged. All other file
rows are untouched. -/
theorem upsert_existing_frame (now : Nat) (st : DbState) (cmd : UpsertFileCommand)
    (ex : FileRow)
    (hnd : (st.files.map (fun r => strLower r.path)).Nodup)
    (hex : lookupFile st cmd.path = some ex) :
    ∃ l1 l2 upd, st.files = l1 ++ ex :: l2 ∧
      (Upsert now st cmd).files = l1 ++ upd :: l2 ∧
      upd.path = ex.path ∧ upd.parentFolderPath = ex.parentFolderPath ∧
      upd.created = ex.created ∧ upd.updated = now ∧
      (cmd.contents = none →
        upd.contents = ex.contents ∧ upd.mimeType = ex.mimeType ∧ upd.size = ex.size) ∧
      (∀ c, cmd.contents = some c →
        upd.contents = c ∧ upd.mimeType = cmd.mimeType ∧ upd.size = c.length) := by
  have hex' : st.files.find? (fun r => strLower r.path == strLower cmd.path) = some ex := hex
  obtain ⟨l1, l2, hsplit, hl1, hpx⟩ := find?_decomp hex'
  have hl2 : ∀ r ∈ l2, (strLower r.path == strLower cmd.path) = false := by
    rw [hsplit] at hnd
    exact no_match_right hnd hpx
  rcases hc : cmd.contents with _ | c
  · refine ⟨l1, l2, { ex with updated := now }, hsplit, ?_, rfl, rfl, rfl, rfl,
      fun _ => ⟨rfl, rfl, rfl⟩, fun c hc' => ?_⟩
    · simp only [Upsert, hex, hc]
      rw [hsplit]
      exact map_update_decomp hl1 hpx hl2
    · exact absurd hc' (by simp)
  · refine ⟨l1, l2,
      { ex with updated := now, contents := c, mimeType := cmd.mimeType, size := c.length },
      hsplit, ?_, rfl, rfl, rfl, rfl, fun hn => ?_, fun c' hc' => ?_⟩
    · simp only [Upsert, hex, hc]
      rw [hsplit]
      exact map_update_decomp hl1 hpx hl2
    · exact absurd hn (by simp)
    · injection hc' with hc'
      subst hc'
      exact ⟨rfl, rfl, rfl⟩

/-- Witness for C7 at the concrete state `stDel`, upserting the existing
path `a` with omitted contents. -/
theorem upsert_existing_frame_witness :
    ∃ l1 l2 upd, stDel.files = l1 ++ mkRow "a" :: l2 ∧
      (Upsert 7 stDel
        { path := "a", contents := none, mimeType := "", properties := [] }).files =
          l1 ++ upd :: l2 ∧
      upd.path = (mkRow "a").path ∧ upd.parentFolderPath = (mkRow "a").parentFolderPath ∧
      upd.created = (mkRow "a").created ∧ upd.updated = 7 ∧
      ((none : Option (List Nat)) = none →
        upd.contents = (mkRow "a").contents ∧ upd.mimeType = (mkRow "a").mimeType ∧
          upd.size = (mkRow "a").size) ∧
      (∀ c, (none : Option (List Nat)) = some c →
        upd.contents = c ∧ upd.mimeType = "" ∧ upd.size = c.length) :=
  upsert_existing_frame 7 stDel
    { path := "a", contents := none, mimeType := "", properties := [] } (mkRow "a")
    (by decide) (by decide)

theorem strData_inj {a b : String} (h : a.data = b.data) : a = b := by
  cases a
  cases b
  exact congrArg String.mk h

theorem pairwise_lt_of_sorted_nodup {l : List FileRow}
    (hs : List.Pairwise fileLe l) (hnd : (l.map (fun r => r.path)).Nodup) :
    List.Pairwise fileLt l := by
  have hne : List.Pairwise (fun a b : FileRow => a.path ≠ b.path) l :=
    List.pairwise_map.mp hnd
  exact (hs.and hne).imp (fun h => lt_of_le_of_ne h.1 (fun hd => h.2 (strData_inj hd)))

theorem nodup_matches {st : DbState} {folder : String} {rec : Bool} {pfx : List String}
    {after : String} (hnd : (st.files.map (fun r => r.path)).Nodup) :
    ((listFilesMatches st folder rec pfx after).map (fun r => r.path)).Nodup := by
  refine List.Nodup.sublist (List.Sublist.map _ ?_) hnd
  rw [listFilesMatches]
  by_cases h : (after == "") = true
  · rw [if_pos h]
    exact List.filter_sublist _
  · rw [if_neg h]
    exact (List.filter_sublist _).trans (List.filter_sublist _)

theorem getLastD_map_mem : ∀ (l : List FileRow), l ≠ [] → ∀ (d : String),
    ∃ y ∈ l, (l.map (fun r => r.path)).getLastD d = y.path
  | [], h, _ => absurd rfl h
  | [a], _, _ => ⟨a, by simp, by simp⟩
  | a :: b :: t, _, d => by
    obtain ⟨y, hy, he⟩ := getLastD_map_mem (b :: t) (by simp) a.path
    refine ⟨y, List.mem_cons_of_mem a hy, ?_⟩
    rw [List.map_cons, List.getLastD_cons]
    exact he

theorem path_le_getLastD_of_pairwise : ∀ (l : List FileRow), List.Pairwise fileLt l →
    ∀ x ∈ l, ∀ d : String, x.path.data ≤ ((l.map (fun r => r.path)).getLastD d).data
  | [], _, x, hx, _ => absurd hx (by simp)
  | [a], _, x, hx, d => by
    rw [List.mem_singleton] at hx
    subst hx
    simp
  | a :: b :: t, hp, x, hx, d => by
    rw [List.map_cons, List.getLastD_cons]
    rcases List.mem_cons.mp hx with hx | hx
    · subst hx
      obtain ⟨y, hy, he⟩ := getLastD_map_mem (b :: t) (by simp) x.path
      rw [he]
      exact le_of_lt (List.rel_of_pairwise_cons hp hy)
    · exact path_le_getLastD_of_pairwise (b :: t) hp.of_cons x hx a.path

theorem filter_gt_take_eq_drop (l : List FileRow) (n : Nat)
    (hp : List.Pairwise fileLt l) (hn1 : 1 ≤ n) (hnl : n ≤ l.length) :
    l.filter (fun r =>
      decide (strLtP (((l.take n).map (fun r => r.path)).getLastD "") r.path)) = l.drop n := by
  have htne : l.take n ≠ [] := by
    intro he
    have h0 : (l.take n).length = 0 := by rw [he]; rfl
    rw [List.length_take, Nat.min_eq_left hnl] at h0
    omega
  have hpt : List.Pairwise fileLt (l.take n) := hp.sublist (List.take_sublist n l)
  have hsplit : l.take n ++ l.drop n = l := List.take_append_drop n l
  have hcross : ∀ z ∈ l.take n, ∀ y ∈ l.drop n, fileLt z y := by
    have hp2 : List.Pairwise fileLt (l.take n ++ l.drop n) := by
      rw [hsplit]
      exact hp
    exact (List.pairwise_append.mp hp2).2.2
  set q : FileRow → Bool := fun r =>
    decide (strLtP (((l.take n).map (fun r => r.path)).getLastD "") r.path) with hq
  have h1 : (l.take n).filter q = [] := by
    rw [List.filter_eq_nil_iff]
    intro x hx
    have hle := path_le_getLastD_of_pairwise (l.take n) hpt x hx ""
    simp only [hq, decide_eq_true_eq]
    exact not_lt.mpr hle
  have h2 : (l.drop n).filter q = l.drop n := by
    rw [List.filter_eq_self]
    intro y hy
    obtain ⟨z, hz, hze⟩ := getLastD_map_mem (l.take n) htne ""
    simp only [hq, decide_eq_true_eq]
    rw [hze]
    exact hcross z hz y hy
  conv_lhs => rw [← hsplit]
  rw [List.filter_append, h1, h2, List.nil_append]

theorem insertionSort_filter_comm {M : List FileRow} {q : FileRow → Bool}
    (hnd : (M.map (fun r => r.path)).Nodup) :
    List.insertionSort fileLe (M.filter q) = (List.insertionSort fileLe M).filter q := by
  apply List.eq_of_perm_of_sorted (r := fileLt)
  · exact (List.perm_insertionSort fileLe (M.filter q)).trans
      (((List.perm_insertionSort fileLe M).filter q).symm)
  · have h1 : ((M.filter q).map (fun r => r.path)).Nodup :=
      List.Nodup.sublist (List.Sublist.map _ (List.filter_sublist M)) hnd
    exact pairwise_lt_of_sorted_nodup (List.sorted_insertionSort fileLe _)
      (((List.perm_insertionSort fileLe (M.filter q)).map _).nodup_iff.mpr h1)
  · have hS : List.Pairwise fileLt (List.insertionSort fileLe M) :=
      pairwise_lt_of_sorted_nodup (List.sorted_insertionSort fileLe M)
        (((List.perm_insertionSort fileLe M).map _).nodup_iff.mpr hnd)
    exact hS.filter q

/-- C2: over any store state with no duplicate and no empty paths, for every
page size `n ≥ 1`, `ListFiles` returns at most `n` files in strictly
ascending path order; `hasMore` is true iff the fetch with limit `n + 1`
returned `n + 1` rows, i.e. iff at least one further matching row exists
beyond the returned page; `lastPath` is the path of the last returned file
(empty string when the page is empty); and when the page is full, resuming
with `after = lastPath` yields the subsequent files with no gaps and no
duplicates: the two pages concatenated are exactly the first `2n` matching
rows in order. -/
theorem listFiles_pagination (st : DbState) (folder : String) (opts : ListOptions)
    (n : Nat) (hn : 1 ≤ n) (hnd : (st.files.map (fun r => r.path)).Nodup)
    (hne : ∀ r ∈ st.files, r.path ≠ "") :
    ∃ r1, ListFiles st folder (some { first := n, after := "" }) opts = some r1 ∧
      r1.files.length ≤ n ∧
      List.Pairwise (fun a b : FileMetadata => strLtP a.fullPath b.fullPath) r1.files ∧
      ((r1.hasMore = true) ↔ n < (listFilesMatches st folder opts.recursive
          opts.pathFilters.allowedPrefixes "").length) ∧
      r1.lastPath = (r1.files.map (fun f => f.fullPath)).getLastD "" ∧
      (r1.files.length = n →
        ∃ r2, ListFiles st folder (some { first := n, after := r1.lastPath }) opts = some r2 ∧
          r1.files ++ r2.files = ((listFilesSorted st folder opts.recursive
            opts.pathFilters.allowedPrefixes "").take (n + n)).map (toMetaWith st.metas)) := by
  have hndM : ((listFilesMatches st folder opts.recursive opts.pathFilters.allowedPrefixes
      "").map (fun r => r.path)).Nodup := nodup_matches hnd
  have hSperm : (listFilesSorted st folder opts.recursive opts.pathFilters.allowedPrefixes
      "").Perm (listFilesMatches st folder opts.recursive opts.pathFilters.allowedPrefixes
        "") := List.perm_insertionSort _ _
  have hndS : ((listFilesSorted st folder opts.recursive opts.pathFilters.allowedPrefixes
      "").map (fun r => r.path)).Nodup := (hSperm.map _).nodup_iff.mpr hndM
  have hSlt : List.Pairwise fileLt (listFilesSorted st folder opts.recursive
      opts.pathFilters.allowedPrefixes "") :=
    pairwise_lt_of_sorted_nodup (List.sorted_insertionSort _ _) hndS
  have htt : ∀ (l : List FileRow), (l.take (n + 1)).take n = l.take n := by
    intro l
    rw [List.take_take, min_eq_left (Nat.le_succ n)]
  refine ⟨_, listFiles_some_eq st folder { first := n, after := "" } opts, ?_, ?_, ?_, rfl, ?_⟩
  · show ((((listFilesSorted st folder opts.recursive opts.pathFilters.allowedPrefixes
        "").take (n + 1)).take n).map (toMetaWith st.metas)).length ≤ n
    rw [htt, List.length_map, List.length_take]
    exact min_le_left _ _
  · show List.Pairwise (fun a b : FileMetadata => strLtP a.fullPath b.fullPath)
      ((((listFilesSorted st folder opts.recursive opts.pathFilters.allowedPrefixes
        "").take (n + 1)).take n).map (toMetaWith st.metas))
    rw [htt]
    exact List.pairwise_map.mpr (hSlt.sublist (List.take_sublist _ _))
  · show ((((listFilesSorted st folder opts.recursive opts.pathFilters.allowedPrefixes
        "").take (n + 1)).length == n + 1) = true) ↔
      n < (listFilesMatches st folder opts.recursive opts.pathFilters.allowedPrefixes
        "").length
    rw [beq_iff_eq, List.length_take, hSperm.length_eq]
    constructor
    · intro h
      have h2 := min_le_right (n + 1) (listFilesMatches st folder opts.recursive
        opts.pathFilters.allowedPrefixes "").length
      rw [h] at h2
      omega
    · intro h
      exact min_eq_left (by omega)
  · intro hlen1
    have hl : ((listFilesSorted st folder opts.recursive opts.pathFilters.allowedPrefixes
        "").take n).length = n := by
      have hl0 : ((((listFilesSorted st folder opts.recursive
          opts.pathFilters.allowedPrefixes "").take (n + 1)).take n).map
            (toMetaWith st.metas)).length = n := hlen1
      rw [htt, List.length_map] at hl0
      exact hl0
    have hlenS : n ≤ (listFilesSorted st folder opts.recursive
        opts.pathFilters.allowedPrefixes "").length := by
      have hmin := List.length_take n (listFilesSorted st folder opts.recursive
        opts.pathFilters.allowedPrefixes "")
      rw [hl] at hmin
      have h2 := min_le_right n (listFilesSorted st folder opts.recursive
        opts.pathFilters.allowedPrefixes "").length
      rw [← hmin] at h2
      exact h2
    have htne : (listFilesSorted st folder opts.recursive opts.pathFilters.allowedPrefixes
        "").take n ≠ [] := by
      intro he
      rw [he, List.length_nil] at hl
      omega
    have hfp : ((((listFilesSorted st folder opts.recursive opts.pathFilters.allowedPrefixes
        "").take (n + 1)).take n).map (toMetaWith st.metas)).map (fun f => f.fullPath) =
        ((listFilesSorted st folder opts.recursive opts.pathFilters.allowedPrefixes
          "").take n).map (fun r => r.path) := by
      rw [htt, List.map_map]
      rfl
    have hlast : (((((listFilesSorted st folder opts.recursive
        opts.pathFilters.allowedPrefixes "").take (n + 1)).take n).map
          (toMetaWith st.metas)).map (fun f => f.fullPath)).getLastD "" =
        (((listFilesSorted st folder opts.recursive opts.pathFilters.allowedPrefixes
          "").take n).map (fun r => r.path)).getLastD "" := by
      rw [hfp]
    have hpne : (((listFilesSorted st folder opts.recursive opts.pathFilters.allowedPrefixes
        "").take n).map (fun r => r.path)).getLastD "" ≠ "" := by
      obtain ⟨y, hy, hye⟩ := getLastD_map_mem _ htne ""
      rw [hye]
      have hyS : y ∈ listFilesSorted st folder opts.recursive
          opts.pathFilters.allowedPrefixes "" := List.mem_of_mem_take hy
      have hyM : y ∈ listFilesMatches st folder opts.recursive
          opts.pathFilters.allowedPrefixes "" := hSperm.mem_iff.mp hyS
      have hyM2 : y ∈ st.files.filter (basePred folder opts.recursive
          opts.pathFilters.allowedPrefixes) := hyM
      exact hne y (List.mem_filter.mp hyM2).1
    have hmp : listFilesMatches st folder opts.recursive opts.pathFilters.allowedPrefixes
        ((((listFilesSorted st folder opts.recursive opts.pathFilters.allowedPrefixes
          "").take n).map (fun r => r.path)).getLastD "") =
        (listFilesMatches st folder opts.recursive opts.pathFilters.allowedPrefixes
          "").filter (fun r => decide (strLtP ((((listFilesSorted st folder opts.recursive
            opts.pathFilters.allowedPrefixes "").take n).map
              (fun r => r.path)).getLastD "") r.path)) := by
      rw [listFilesMatches, if_neg (by simpa using hpne)]
      rfl
    have hS' : listFilesSorted st folder opts.recursive opts.pathFilters.allowedPrefixes
        ((((listFilesSorted st folder opts.recursive opts.pathFilters.allowedPrefixes
          "").take n).map (fun r => r.path)).getLastD "") =
        (listFilesSorted st folder opts.recursive opts.pathFilters.allowedPrefixes
          "").drop n := by
      rw [listFilesSorted, hmp, insertionSort_filter_comm hndM]
      exact filter_gt_take_eq_drop _ n hSlt hn hlenS
    refine ⟨_, listFiles_some_eq st folder
      (Paging.mk n ((((((listFilesSorted st folder opts.recursive
        opts.pathFilters.allowedPrefixes "").take (n + 1)).take n).map
          (toMetaWith st.metas)).map (fun f => f.fullPath)).getLastD "")) opts, ?_⟩
    show (((listFilesSorted st folder opts.recursive opts.pathFilters.allowedPrefixes
        "").take (n + 1)).take n).map (toMetaWith st.metas) ++
      (((listFilesSorted st folder opts.recursive opts.pathFilters.allowedPrefixes
        ((((((listFilesSorted st folder opts.recursive opts.pathFilters.allowedPrefixes
          "").take (n + 1)).take n).map (toMetaWith st.metas)).map
            (fun f => f.fullPath)).getLastD "")).take (n + 1)).take n).map
              (toMetaWith st.metas) =
      ((listFilesSorted st folder opts.recursive opts.pathFilters.allowedPrefixes
        "").take (n + n)).map (toMetaWith st.metas)
    rw [hlast, hS', htt, htt, ← List.map_append, ← List.take_add]

/-- Witness for C2 at the concrete state `st4` (files `a`, `b`, `c`, `d`)
with page size 2. -/
theorem listFiles_pagination_witness :
    ∃ r1, ListFiles st4 "" (some { first := 2, after := "" }) recOpts = some r1 ∧
      r1.files.length ≤ 2 ∧
      List.Pairwise (fun a b : FileMetadata => strLtP a.fullPath b.fullPath) r1.files ∧
      ((r1.hasMore = true) ↔ 2 < (listFilesMatches st4 "" recOpts.recursive
          recOpts.pathFilters.allowedPrefixes "").length) ∧
      r1.lastPath = (r1.files.map (fun f => f.fullPath)).getLastD "" ∧
      (r1.files.length = 2 →
        ∃ r2, ListFiles st4 "" (some { first := 2, after := r1.lastPath }) recOpts =
            some r2 ∧
          r1.files ++ r2.files = ((listFilesSorted st4 "" recOpts.recursive
            recOpts.pathFilters.allowedPrefixes "").take (2 + 2)).map
              (toMetaWith st4.metas)) :=
  listFiles_pagination st4 "" recOpts 2 (by decide) (by decide) (by decide)
